import Mathlib

/-!
Verification of the unified-diff application engine of this repository
(`agentic_system/udiff.py`).

Strings are embedded as `List Char`.  Each Python string primitive used by the
engine (`in`, `str.count`, `str.replace`, `str.find`, `str.splitlines`,
`str.strip`, `str.rstrip`, `re.sub(r"\s+", " ", ·)`) is given an executable
definition below.  `str.count` and `str.replace` follow Python's
non-overlapping left-to-right scan.  Whitespace is the ASCII whitespace set
(space, tab, newline, carriage return, vertical tab, form feed) and line
boundaries are `\n`, `\r`, `\r\n`; the engine's inputs in this repository
only ever contain these.  The recursions that Python performs by slicing are
written with an explicit fuel argument equal to the scanned length, so that
every definition reduces inside the kernel.
-/

namespace Udiff

abbrev Str := List Char

/-- ASCII whitespace, as recognised by `str.strip()` and `\s` for the
engine's inputs. -/
def isWs (c : Char) : Bool :=
  c == ' ' || c == '\t' || c == '\n' || c == '\r' || c == Char.ofNat 11 || c == Char.ofNat 12

/-- Python `str.strip()`: remove whitespace from both ends. -/
def stripWs (s : Str) : Str :=
  ((s.dropWhile isWs).reverse.dropWhile isWs).reverse

/-- Python `str.rstrip("\r\n")`: remove `\r`/`\n` characters from the right end. -/
def rstripCRLF (s : Str) : Str :=
  (s.reverse.dropWhile (fun c => c == '\n' || c == '\r')).reverse

/-- Helper for `re.sub(r"\s+", " ", s)`: the flag records whether the previous
character was part of a whitespace run already replaced by a space. -/
def normWsAux : Bool → Str → Str
  | _, [] => []
  | prevWs, c :: t =>
    if isWs c then
      if prevWs then normWsAux true t else ' ' :: normWsAux true t
    else c :: normWsAux false t

/-- Python `re.sub(r"\s+", " ", s)`: collapse each maximal whitespace run to one space. -/
def normWs (s : Str) : Str := normWsAux false s

/-- Python `needle in hay` (substring containment). -/
def pyContains (n : Str) : Str → Bool
  | [] => n.isEmpty
  | c :: t => n.isPrefixOf (c :: t) || pyContains n t

/-- Scan for `hay.count(needle)` (non-overlapping, left to right); the fuel is
the length of the remaining haystack. -/
def pyCountAux (n : Str) : Nat → Str → Nat
  | 0, _ => 0
  | _ + 1, [] => 0
  | fuel + 1, c :: t =>
    if n.isPrefixOf (c :: t) then 1 + pyCountAux n fuel ((c :: t).drop n.length)
    else pyCountAux n fuel t

/-- Python `hay.count(needle)`. -/
def pyCount (n hay : Str) : Nat :=
  if n = [] then hay.length + 1 else pyCountAux n hay.length hay

/-- Scan for `hay.replace(needle, repl)` (all non-overlapping occurrences,
left to right). -/
def pyReplaceAux (n r : Str) : Nat → Str → Str
  | 0, s => s
  | _ + 1, [] => []
  | fuel + 1, c :: t =>
    if n.isPrefixOf (c :: t) then r ++ pyReplaceAux n r fuel ((c :: t).drop n.length)
    else c :: pyReplaceAux n r fuel t

/-- Python `hay.replace(needle, repl)`. -/
def pyReplace (n r hay : Str) : Str :=
  if n = [] then r ++ (hay.map (fun c => c :: r)).flatten
  else pyReplaceAux n r hay.length hay

/-- Scan for `hay.find(needle)`, carrying the index of the scan head. -/
def pyFindAux (n : Str) (i : Nat) : Str → Option Nat
  | [] => if n = [] then some i else Option.none
  | c :: t => if n.isPrefixOf (c :: t) then some i else pyFindAux n (i + 1) t

/-- Python `hay.find(needle)`, as `Option` (Python returns `-1` for `none`). -/
def pyFind (n hay : Str) : Option Nat := pyFindAux n 0 hay

/-- Predicate: `needle` occurs in `hay` starting at index `i`. -/
def occursB (n hay : Str) (i : Nat) : Bool := n.isPrefixOf (hay.drop i)

/-- All start positions at which `needle` occurs in `hay` (for a nonempty
needle every occurrence start is `< hay.length`, so the range covers all). -/
def occPositions (n hay : Str) : List Nat :=
  (List.range (hay.length + 1)).filter (fun i => occursB n hay i)

/-- Helper for `str.splitlines(keepends=True)`; `acc` holds the current line
reversed. -/
def slKeepAux (acc : Str) : Str → List Str
  | [] => if acc.isEmpty then [] else [acc.reverse]
  | '\r' :: '\n' :: t => (acc.reverse ++ ['\r', '\n']) :: slKeepAux [] t
  | '\r' :: t => (acc.reverse ++ ['\r']) :: slKeepAux [] t
  | '\n' :: t => (acc.reverse ++ ['\n']) :: slKeepAux [] t
  | c :: t => slKeepAux (c :: acc) t

/-- Python `s.splitlines(keepends=True)`. -/
def slKeep (s : Str) : List Str := slKeepAux [] s

/-- Helper for `str.splitlines()` (terminators removed). -/
def slNoKeepAux (acc : Str) : Str → List Str
  | [] => if acc.isEmpty then [] else [acc.reverse]
  | '\r' :: '\n' :: t => acc.reverse :: slNoKeepAux [] t
  | '\r' :: t => acc.reverse :: slNoKeepAux [] t
  | '\n' :: t => acc.reverse :: slNoKeepAux [] t
  | c :: t => slNoKeepAux (c :: acc) t

/-- Python `s.splitlines()`. -/
def slNoKeep (s : Str) : List Str := slNoKeepAux [] s

/-! ## The hunk model (`hunk_to_before_after`) -/

/-- Model of `hunk_to_before_after(hunk, lines=True)`: collect the before view from
context and delete lines, the after view from context and add lines; lines
shorter than one character are skipped, other opcodes are ignored. -/
def hunk_to_before_after_lines : List Str → List Str × List Str
  | [] => ([], [])
  | line :: rest =>
    match line with
    | [] => hunk_to_before_after_lines rest
    | op :: r =>
      if op = ' ' then
        (r :: (hunk_to_before_after_lines rest).1, r :: (hunk_to_before_after_lines rest).2)
      else if op = '-' then
        (r :: (hunk_to_before_after_lines rest).1, (hunk_to_before_after_lines rest).2)
      else if op = '+' then
        ((hunk_to_before_after_lines rest).1, r :: (hunk_to_before_after_lines rest).2)
      else hunk_to_before_after_lines rest

/-- Model of `hunk_to_before_after(hunk)`: the same views joined to strings. -/
def hunk_to_before_after (hunk : List Str) : Str × Str :=
  ((hunk_to_before_after_lines hunk).1.flatten, (hunk_to_before_after_lines hunk).2.flatten)

/-! ## The direct matcher (`directly_apply_hunk`) -/

/-- Result of one strategy call.  Python signals the ambiguous case by raising
`SearchTextNotUnique`; `nomatch` is Python's `None`. -/
inductive DirectResult where
  | applied (s : Str)
  | nomatch
  | ambiguous
deriving DecidableEq, Repr

/-- The whitespace-normalized fallback path of `directly_apply_hunk`
(lines 205-222): if the normalized before occurs in the normalized content,
locate the first occurrence of the before's first line in the raw content and
splice there when the same-length block normalizes to the same text. -/
def fuzzyApply (content : Str) (hunk : List Str) : DirectResult :=
  match slNoKeep (hunk_to_before_after hunk).1 with
  | [] => .nomatch
  | fl :: _ =>
    if fl = [] then .nomatch
    else if pyContains fl content then
      match pyFind fl content with
      | some si =>
        if si + (hunk_to_before_after hunk).1.length ≤ content.length then
          if normWs ((content.drop si).take (hunk_to_before_after hunk).1.length) =
              normWs (hunk_to_before_after hunk).1 then
            .applied (content.take si ++ (hunk_to_before_after hunk).2 ++
              content.drop (si + (hunk_to_before_after hunk).1.length))
          else .nomatch
        else .nomatch
      | Option.none => .nomatch
    else .nomatch

/-- Model of `directly_apply_hunk(content, hunk)`: exact search-and-replace, raising
the not-unique error when `content.count(before) > 1`, then the fuzzy
whitespace-normalized path. -/
def directly_apply_hunk (content : Str) (hunk : List Str) : DirectResult :=
  if (hunk_to_before_after hunk).1 = [] then .nomatch
  else if pyContains (hunk_to_before_after hunk).1 content then
    if 1 < pyCount (hunk_to_before_after hunk).1 content then .ambiguous
    else .applied (pyReplace (hunk_to_before_after hunk).1 (hunk_to_before_after hunk).2 content)
  else if pyContains (normWs (hunk_to_before_after hunk).1) (normWs content) then
    fuzzyApply content hunk
  else .nomatch

/-! ## The diff extractor (`find_diffs` and its three sub-recognizers) -/

/-- A line carrying edit intent: starts with `+` or `-`. -/
def isEditLine (l : Str) : Bool := ['+'].isPrefixOf l || ['-'].isPrefixOf l

/-- Lines kept by the bare-sign synthesizer: start with `+`, `-` or a space. -/
def keepLine (l : Str) : Bool := isEditLine l || [' '].isPrefixOf l

/-- Model of the trailing-newline fixup of `find_diffs`. -/
def ensureNL (content : Str) : Str :=
  if content.getLast? = some '\n' then content else content ++ ['\n']

/-- Loop of `parse_unified_diff`: state is the current target name, the open
hunk, and the emitted edits.  A hunk is flushed at each `@@ ` line and at the
end, and only kept when it contains a `+`/`-` line. -/
def pudGo : List Str → Option Str → List Str → List (Option Str × List Str) →
    List (Option Str × List Str)
  | [], fname, cur, acc =>
    if cur ≠ [] ∧ cur.any isEditLine then acc ++ [(fname, cur)] else acc
  | line :: rest, fname, cur, acc =>
    if ("@@ ".toList).isPrefixOf line then
      pudGo rest fname [line]
        (if cur ≠ [] ∧ cur.any isEditLine then acc ++ [(fname, cur)] else acc)
    else if ("--- ".toList).isPrefixOf line then pudGo rest fname cur acc
    else if ("+++ ".toList).isPrefixOf line then
      pudGo rest (some (stripWs (line.drop 4))) [] acc
    else if cur ≠ [] ∨ ([' '].isPrefixOf line || isEditLine line) = true then
      pudGo rest fname (cur ++ [line]) acc
    else pudGo rest fname cur acc

/-- Model of `parse_unified_diff(lines)`. -/
def parse_unified_diff (lines : List Str) : List (Option Str × List Str) :=
  pudGo lines Option.none [] []

/-- Index (relative) of the first line starting with a triple backtick. -/
def findFence : List Str → Option Nat
  | [] => Option.none
  | l :: rest =>
    if ("```".toList).isPrefixOf l then some 0 else (findFence rest).map (· + 1)

/-- End line of a fenced block: first fence line at or after `s`, else the
total number of lines. -/
def pfbEnd (lines : List Str) (s : Nat) : Nat :=
  match findFence (lines.drop s) with
  | some k => s + k
  | Option.none => lines.length

/-- Loop of `process_fenced_block`: state is target name, open hunk, the
`keeper` flag, and the emitted edits.  Every line is first appended to the
hunk; a `+++ ` line directly after a `--- ` line flushes the hunk (trimmed of
the header pair, and of a preceding blank line) with no keeper check; an `@`
line flushes the hunk (trimmed of the marker) only when the keeper flag is
set. -/
def pfbGo : List Str → Option Str → List Str → Bool → List (Option Str × List Str) →
    List (Option Str × List Str)
  | [], _, _, _, acc => acc
  | line :: rest, fname, hunk0, keeper, acc =>
    let hunk := hunk0 ++ [line]
    if line.length < 2 then pfbGo rest fname hunk keeper acc
    else if ("+++ ".toList).isPrefixOf line ∧ 2 ≤ hunk.length ∧
        ("--- ".toList).isPrefixOf (hunk.getD (hunk.length - 2) []) then
      pfbGo rest (some (stripWs (line.drop 4))) [] false
        (acc ++ [(fname,
          if 2 < hunk.length ∧ hunk.getD (hunk.length - 3) [] = ['\n'] then
            hunk.take (hunk.length - 3)
          else hunk.take (hunk.length - 2))])
    else if line.headD ' ' = '-' ∨ line.headD ' ' = '+' then pfbGo rest fname hunk true acc
    else if line.headD ' ' ≠ '@' then pfbGo rest fname hunk keeper acc
    else if keeper = false then pfbGo rest fname [] keeper acc
    else pfbGo rest fname [] false (acc ++ [(fname, hunk.take (hunk.length - 1))])

/-- Model of `process_fenced_block(lines, start)`: returns the line after the closing
fence, and the edits of the block (a synthetic `@@ @@` marker flushes the last
hunk). -/
def process_fenced_block (lines : List Str) (start : Nat) :
    Nat × List (Option Str × List Str) :=
  (pfbEnd lines start + 1,
    pfbGo ((lines.drop start).take (pfbEnd lines start - start) ++ [("@@ @@".toList)])
      Option.none [] false [])

/-- Loop of `find_diffs_in_markdown` over line numbers.  The fuel bounds the
iteration count; `process_fenced_block` always returns a strictly larger line
number, so a fuel of one more than the number of lines is enough. -/
def fdimGo (lines : List Str) : Nat → Nat → List (Option Str × List Str)
  | 0, _ => []
  | fuel + 1, i =>
    if i < lines.length then
      if ("```diff".toList).isPrefixOf (lines.getD i []) then
        (process_fenced_block lines (i + 1)).2 ++
          fdimGo lines fuel (process_fenced_block lines (i + 1)).1
      else fdimGo lines fuel (i + 1)
    else []

/-- Model of `find_diffs_in_markdown(content)`. -/
def find_diffs_in_markdown (content : Str) : List (Option Str × List Str) :=
  fdimGo (slKeep content) ((slKeep content).length + 1) 0

/-- Model of `find_diffs(content)`: fenced-block path, then standard-marker path, then
bare-sign path, else no edits. -/
def find_diffs (content : Str) : List (Option Str × List Str) :=
  if (slKeep (ensureNL content)).any (fun l => ("```diff".toList).isPrefixOf l) then
    find_diffs_in_markdown (ensureNL content)
  else if (slKeep (ensureNL content)).any (fun l => ("@@ ".toList).isPrefixOf l) then
    parse_unified_diff (slKeep (ensureNL content))
  else if (slKeep (ensureNL content)).any isEditLine then
    [(Option.none, ("@@ -1,1 +1,1 @@\n".toList) :: (slKeep (ensureNL content)).filter keepLine)]
  else []

/-! ## The hunk normalizer (`normalize_hunk`)

`normalize_hunk` canonicalizes purely-whitespace lines and then re-diffs the
before view against the after view with `difflib.unified_diff` using a context
window wide enough to include all lines, dropping the three header lines.
`difflib` is Python standard library code, not part of this repository, so the
re-diff is modelled from the spec (see `computeDiff`). -/

/-- Canonicalization of one line, `line if line.strip() else line[-(len(line)
- len(line.rstrip("\r\n")))]`: a line that is blank after stripping is
replaced by the single character at Python index `-k` where `k` is the number
of trailing `\r`/`\n` characters (`line[0]` when `k = 0`); on the empty line
this indexing raises `IndexError`, modelled as `none`. -/
def canonLine (line : Str) : Option Str :=
  if stripWs line ≠ [] then some line
  else
    match line.get? (if line.length - (rstripCRLF line).length = 0 then 0
      else (rstripCRLF line).length) with
    | some c => some [c]
    | Option.none => Option.none

/-- Canonicalize every line, propagating the `IndexError`. -/
def canonAll : List Str → Option (List Str)
  | [] => some []
  | l :: rest =>
    match canonLine l with
    | some c =>
      match canonAll rest with
      | some cs => some (c :: cs)
      | Option.none => Option.none
    | Option.none => Option.none

/-- A tagged diff line. -/
inductive DLine where
  | ctx (l : Str)
  | del (l : Str)
  | add (l : Str)
deriving DecidableEq, Repr

/-- Modelled from the spec: the body of `difflib.unified_diff(before, after,
n=max(len(before), len(after)))` for distinct inputs is a single
maximal-context hunk whose context/delete lines enumerate `before` in order
and whose context/add lines enumerate `after` in order; this computes one such
line sequence. -/
def computeDiff : List Str → List Str → List DLine
  | [], ys => ys.map .add
  | x :: xs, [] => .del x :: computeDiff xs []
  | x :: xs, y :: ys =>
    if x = y then .ctx x :: computeDiff xs ys
    else .del x :: computeDiff xs (y :: ys)

/-- Render a tagged diff line the way `difflib` emits it: opcode character
followed by the line (which keeps its own terminator). -/
def renderDLine : DLine → Str
  | .ctx l => ' ' :: l
  | .del l => '-' :: l
  | .add l => '+' :: l

/-- Render a whole diff body. -/
def renderDiff (d : List DLine) : List Str := d.map renderDLine

/-- Modelled from the spec: `list(difflib.unified_diff(b, a, n=max(...)))[3:]`
— empty when the two inputs are equal (`difflib` yields nothing in that
case, and the spec records that such hunks are silently dropped), otherwise
the tagged lines of the single maximal-context hunk. -/
def reDiff (b a : List Str) : List Str :=
  if b = a then [] else renderDiff (computeDiff b a)

/-- Result of `normalize_hunk`: either the recomputed hunk, or the
`IndexError` raised while canonicalizing an empty line (the `except
IndexError` inside `normalize_hunk` only wraps the slicing of the re-diff
output, which cannot fail, so the error escapes to the caller). -/
inductive NormResult where
  | ok (h : List Str)
  | err
deriving DecidableEq, Repr

/-- Model of `normalize_hunk(hunk)`. -/
def normalize_hunk (hunk : List Str) : NormResult :=
  match canonAll (hunk_to_before_after_lines hunk).1 with
  | Option.none => .err
  | some b =>
    match canonAll (hunk_to_before_after_lines hunk).2 with
    | Option.none => .err
    | some a => .ok (reDiff b a)

/-! ## The context-shrinking matcher (`apply_partial_hunk`) -/

/-- Section type of a hunk line: `x` for `+`/`-` lines, otherwise the line's
own first character (a space for the empty line). -/
def opOf (line : Str) : Char :=
  match line with
  | [] => ' '
  | c :: _ => if c = '-' ∨ c = '+' then 'x' else c

/-- Run-length partition of a hunk into sections of equal type, mirroring the
accumulation loop of `apply_partial_hunk` (initial type is a space, empty
initial section is not emitted). -/
def buildSectionsAux : List Str → Char → List Str → List (Char × List Str) →
    List (Char × List Str)
  | [], cty, csec, acc => if csec = [] then acc else acc ++ [(cty, csec)]
  | line :: rest, cty, csec, acc =>
    if opOf line ≠ cty then
      buildSectionsAux rest (opOf line) [line]
        (if csec = [] then acc else acc ++ [(cty, csec)])
    else buildSectionsAux rest cty (csec ++ [line]) acc

/-- The sections of a hunk. -/
def buildSections (hunk : List Str) : List (Char × List Str) :=
  buildSectionsAux hunk ' ' [] []

/-- Inner loop: trailing context of length `f`, `f-1`, ..., `0`; a candidate
succeeds only when the direct matcher returns a nonempty application
(`if result:`); an ambiguous candidate is caught and the scan continues. -/
def tryFs (content : Str) (pctx sec fol : List Str) : Nat → Option Str
  | 0 =>
    match directly_apply_hunk content (pctx ++ sec) with
    | .applied r => if r = [] then Option.none else some r
    | _ => Option.none
  | f + 1 =>
    match directly_apply_hunk content (pctx ++ sec ++ fol.take (f + 1)) with
    | .applied r => if r = [] then tryFs content pctx sec fol f else some r
    | _ => tryFs content pctx sec fol f

/-- Outer loop: leading context of length `p`, `p-1`, ..., `0` (Python's
`preceding_ctx[-p:]` is `drop (length - p)`); for each, the full inner scan. -/
def tryPs (content : Str) (pre sec fol : List Str) : Nat → Option Str
  | 0 => tryFs content [] sec fol fol.length
  | p + 1 =>
    match tryFs content (pre.drop (pre.length - (p + 1))) sec fol fol.length with
    | some r => some r
    | Option.none => tryPs content pre sec fol p

/-- All context combinations for one edit section, in Python's scan order. -/
def tryCand (content : Str) (pre sec fol : List Str) : Option Str :=
  tryPs content pre sec fol pre.length

/-- Type of the section at index `i`. -/
def typeOf (S : List (Char × List Str)) (i : Nat) : Char := (S.getD i (' ', [])).1

/-- Lines of the section at index `i`. -/
def secOf (S : List (Char × List Str)) (i : Nat) : List Str := (S.getD i (' ', [])).2

/-- Leading context available to the section at `i` (the previous section's
lines, nothing at the left boundary). -/
def preOf (S : List (Char × List Str)) (i : Nat) : List Str :=
  if i = 0 then [] else secOf S (i - 1)

/-- Trailing context available to the section at `i` (the next section's
lines, nothing at the right boundary). -/
def folOf (S : List (Char × List Str)) (i : Nat) : List Str :=
  if i + 1 < S.length then secOf S (i + 1) else []

/-- The section loop of `apply_partial_hunk`: walk the sections from index
`i`, threading the evolving content through each successfully applied edit
section; any edit section with no successful candidate fails the whole
application.  The fuel bounds the walk and is called with more than the number
of sections. -/
def segLoopAux (S : List (Char × List Str)) : Nat → Nat → Str → Option Str
  | 0, _, c => some c
  | fuel + 1, i, c =>
    if i < S.length then
      if typeOf S i = 'x' then
        match tryCand c (preOf S i) (secOf S i) (folOf S i) with
        | some r => segLoopAux S fuel (i + 1) r
        | Option.none => Option.none
      else segLoopAux S fuel (i + 1) c
    else some c

/-- Model of `apply_partial_hunk(content, hunk)`. -/
def apply_partial_hunk (content : Str) (hunk : List Str) : Option Str :=
  segLoopAux (buildSections hunk) ((buildSections hunk).length + 1) 0 content

/-- The states the section loop of `apply_partial_hunk` passes through:
`Reaches S i c j c'` holds when the loop, started at section `i` with content
`c`, arrives at section `j` holding content `c'` (skipping non-edit sections,
and applying each edit section's first successful candidate). -/
inductive Reaches (S : List (Char × List Str)) : Nat → Str → Nat → Str → Prop where
  | refl (i : Nat) (c : Str) : Reaches S i c i c
  | skip (i : Nat) (c : Str) (j : Nat) (c' : Str) :
      i < S.length → typeOf S i ≠ 'x' →
      Reaches S (i + 1) c j c' → Reaches S i c j c'
  | step (i : Nat) (c : Str) (j : Nat) (c' r : Str) :
      i < S.length → typeOf S i = 'x' →
      tryCand c (preOf S i) (secOf S i) (folOf S i) = some r →
      Reaches S (i + 1) r j c' → Reaches S i c j c'

/-! ## The apply orchestrator (`do_replace`) -/

/-- Result of `do_replace`: a returned string, Python's `None`, or the
re-raised `SearchTextNotUnique`. -/
inductive ReplaceResult where
  | ok (s : Str)
  | fail
  | ambiguous
deriving DecidableEq, Repr

/-- The comparison of the last-resort block match at window start `i`:
`content_block.strip() == ''.join(before_lines).strip()` — the window's lines
and the before lines are each joined first, and the joined strings stripped of
surrounding whitespace. -/
def lrCond (cl bl : List Str) (i : Nat) : Prop :=
  stripWs ((cl.drop i).take bl.length).flatten = stripWs bl.flatten

instance instDecidableLrCond (cl bl : List Str) (i : Nat) : Decidable (lrCond cl bl i) :=
  inferInstanceAs (Decidable (_ = _))

/-- The spliced result of the last-resort block match at window start `i`. -/
def lrSplice (cl bl al : List Str) (i : Nat) : Str :=
  (cl.take i ++ al ++ cl.drop (i + bl.length)).flatten

/-- The loop body of the last-resort block match: window start `i`, number of
windows left `k`. -/
def lrAux (cl bl al : List Str) : Nat → Nat → Option Str
  | _, 0 => Option.none
  | i, k + 1 =>
    if lrCond cl bl i then some (lrSplice cl bl al i)
    else lrAux cl bl al (i + 1) k

/-- Strategy 6 of `do_replace`: the last-resort sliding block match (lines
319-327). -/
def step6 (content : Str) (hunk : List Str) : ReplaceResult :=
  if (hunk_to_before_after_lines hunk).1 = [] then .fail
  else
    match lrAux (slKeep content) (hunk_to_before_after_lines hunk).1
        (hunk_to_before_after_lines hunk).2 0
        ((slKeep content).length + 1 - (hunk_to_before_after_lines hunk).1.length) with
    | some r => .ok r
    | Option.none => .fail

/-- Strategy 5 of `do_replace`: context-shrinking application; an empty result
fails the `if result:` truthiness test and the cascade continues. -/
def step5 (content : Str) (hunk : List Str) : ReplaceResult :=
  match apply_partial_hunk content hunk with
  | some r => if r = [] then step6 content hunk else .ok r
  | Option.none => step6 content hunk

/-- Strategy 4 of `do_replace`: direct application of the normalized hunk,
only when normalization changed the hunk; an `IndexError` escaping
`normalize_hunk` is caught by the `except Exception` of `do_replace`, which
abandons the remaining strategies and returns `None`. -/
def step4 (content : Str) (hunk : List Str) : ReplaceResult :=
  match normalize_hunk hunk with
  | .err => .fail
  | .ok nh =>
    if nh = hunk then step5 content hunk
    else
      match directly_apply_hunk content nh with
      | .ambiguous => .ambiguous
      | .applied r => if r = [] then step5 content hunk else .ok r
      | .nomatch => step5 content hunk

/-- Strategies 3-6 of `do_replace` (the `try` block): raw direct application,
then the rest of the cascade; `SearchTextNotUnique` is re-raised. -/
def doCascade (content : Str) (hunk : List Str) : ReplaceResult :=
  match directly_apply_hunk content hunk with
  | .ambiguous => .ambiguous
  | .applied r => if r = [] then step4 content hunk else .ok r
  | .nomatch => step4 content hunk

/-- Model of `do_replace(fname, content, hunk)`: new-file case (the target does not
exist and the stripped before text is empty; the `touch` side effect is
outside the model), append case, then the strategy cascade. -/
def do_replace (target_exists : Bool) (content : Str) (hunk : List Str) : ReplaceResult :=
  if target_exists = false ∧ stripWs (hunk_to_before_after hunk).1 = [] then
    .ok (hunk_to_before_after hunk).2
  else if stripWs (hunk_to_before_after hunk).1 = [] then
    .ok (content ++ (hunk_to_before_after hunk).2)
  else doCascade content hunk

/-! ## Lemmas about occurrence scanning -/

theorem occursB_zero (n hay : Str) : occursB n hay 0 = n.isPrefixOf hay := by
  simp [occursB]

theorem occursB_cons_succ (n : Str) (c : Char) (t : Str) (j : Nat) :
    occursB n (c :: t) (j + 1) = occursB n t j := by
  simp [occursB]

theorem occursB_drop (n hay : Str) (m j : Nat) :
    occursB n (hay.drop m) j = occursB n hay (m + j) := by
  simp [occursB, List.drop_drop]

theorem isPrefixOf_nil_iff {n : Str} : n.isPrefixOf ([] : Str) = true ↔ n = [] := by
  rw [List.isPrefixOf_iff_prefix, List.prefix_nil]

theorem occursB_length {n hay : Str} {j : Nat} (hn : n ≠ [])
    (h : occursB n hay j = true) : j + n.length ≤ hay.length := by
  have hp : n <+: hay.drop j := List.isPrefixOf_iff_prefix.mp h
  have hl : n.length ≤ hay.length - j := by
    simpa using hp.length_le
  have hpos : 0 < n.length := List.length_pos.mpr hn
  omega

theorem noOccursB_count (n : Str) :
    ∀ (fuel : Nat) (hay : Str), (∀ j, occursB n hay j = false) →
    pyCountAux n fuel hay = 0 := by
  intro fuel
  induction fuel with
  | zero => intro hay _; rfl
  | succ f ih =>
    intro hay hno
    match hay with
    | [] => rfl
    | c :: t =>
      have h0 : n.isPrefixOf (c :: t) = false := by
        have := hno 0
        rwa [occursB_zero] at this
      simp only [pyCountAux, h0, Bool.false_eq_true, if_false]
      exact ih t (fun j => by rw [← occursB_cons_succ n c t j]; exact hno (j + 1))

theorem noOccursB_replace (n r : Str) :
    ∀ (fuel : Nat) (hay : Str), (∀ j, occursB n hay j = false) →
    pyReplaceAux n r fuel hay = hay := by
  intro fuel
  induction fuel with
  | zero => intro hay _; rfl
  | succ f ih =>
    intro hay hno
    match hay with
    | [] => rfl
    | c :: t =>
      have h0 : n.isPrefixOf (c :: t) = false := by
        have := hno 0
        rwa [occursB_zero] at this
      simp only [pyReplaceAux, h0, Bool.false_eq_true, if_false]
      rw [ih t (fun j => by rw [← occursB_cons_succ n c t j]; exact hno (j + 1))]

theorem pyContains_of_occursB {n : Str} (hay : Str) (i : Nat)
    (h : occursB n hay i = true) : pyContains n hay = true := by
  induction hay generalizing i with
  | nil =>
    simp only [pyContains]
    cases i <;> simp_all [occursB, List.isEmpty_iff, isPrefixOf_nil_iff]
  | cons c t ih =>
    cases i with
    | zero =>
      rw [occursB_zero] at h
      simp [pyContains, h]
    | succ j =>
      rw [occursB_cons_succ] at h
      simp [pyContains, ih j h]

theorem pyContains_of_countAux_pos {n : Str} :
    ∀ (fuel : Nat) (hay : Str), 0 < pyCountAux n fuel hay → pyContains n hay = true := by
  intro fuel
  induction fuel with
  | zero => intro hay h; simp [pyCountAux] at h
  | succ f ih =>
    intro hay h
    match hay with
    | [] => simp [pyCountAux] at h
    | c :: t =>
      by_cases hp : n.isPrefixOf (c :: t) = true
      · simp [pyContains, hp]
      · have hfalse : n.isPrefixOf (c :: t) = false := by
          rw [Bool.eq_false_iff]
          simpa using hp
        simp only [pyCountAux, hfalse, Bool.false_eq_true, if_false] at h
        simp [pyContains, ih t h]

/-- Core scan lemma: when `n` occurs in `hay` at exactly one position `i`, the
non-overlapping count is `1` and the replacement splices `r` at `i`. -/
theorem uniqueOccursB_count_replace {n : Str} (hn : n ≠ []) (r : Str) :
    ∀ (fuel : Nat) (hay : Str) (i : Nat), hay.length ≤ fuel →
    occursB n hay i = true → (∀ j, occursB n hay j = true → j = i) →
    pyCountAux n fuel hay = 1 ∧
    pyReplaceAux n r fuel hay = hay.take i ++ r ++ hay.drop (i + n.length) := by
  intro fuel
  induction fuel with
  | zero =>
    intro hay i hlen hocc _
    have : hay = [] := by
      cases hay with
      | nil => rfl
      | cons c t => simp at hlen
    subst this
    rw [occursB, List.drop_nil, isPrefixOf_nil_iff] at hocc
    exact absurd hocc hn
  | succ f ih =>
    intro hay i hlen hocc huniq
    match hay with
    | [] =>
      rw [occursB, List.drop_nil, isPrefixOf_nil_iff] at hocc
      exact absurd hocc hn
    | c :: t =>
      by_cases hp : n.isPrefixOf (c :: t) = true
      · have hi0 : i = 0 := by
          have := huniq 0 (by rwa [occursB_zero])
          omega
        subst hi0
        have hnone : ∀ j, occursB n ((c :: t).drop n.length) j = false := by
          intro j
          by_contra hcon
          have htrue : occursB n ((c :: t).drop n.length) j = true := by
            simpa using hcon
          rw [occursB_drop] at htrue
          have := huniq (n.length + j) htrue
          have hpos : 0 < n.length := List.length_pos.mpr hn
          omega
        have hdlen : ((c :: t).drop n.length).length ≤ f := by
          have hpos : 0 < n.length := List.length_pos.mpr hn
          simp only [List.length_cons] at hlen
          simp only [List.length_drop, List.length_cons]
          omega
        constructor
        · simp only [pyCountAux, hp, if_true]
          rw [noOccursB_count n f _ hnone]
        · simp only [pyReplaceAux, hp, if_true]
          rw [noOccursB_replace n r f _ hnone]
          simp
      · have hfalse : n.isPrefixOf (c :: t) = false := by
          rw [Bool.eq_false_iff]
          simpa using hp
        have hine : i ≠ 0 := by
          intro h0
          subst h0
          rw [occursB_zero] at hocc
          rw [hocc] at hfalse
          exact Bool.noConfusion hfalse
        obtain ⟨i', rfl⟩ : ∃ i', i = i' + 1 := ⟨i - 1, by omega⟩
        have hocc' : occursB n t i' = true := by
          rwa [occursB_cons_succ] at hocc
        have huniq' : ∀ j, occursB n t j = true → j = i' := by
          intro j hj
          have := huniq (j + 1) (by rwa [occursB_cons_succ])
          omega
        have hlen' : t.length ≤ f := by
          simp only [List.length_cons] at hlen
          omega
        obtain ⟨hc, hr⟩ := ih t i' hlen' hocc' huniq'
        constructor
        · simp only [pyCountAux, hfalse, Bool.false_eq_true, if_false]
          exact hc
        · simp only [pyReplaceAux, hfalse, Bool.false_eq_true, if_false, hr]
          have : i' + 1 + n.length = (i' + n.length) + 1 := by omega
          rw [this]
          simp

/-! ## Claims about the direct matcher (C1, C2, C4) -/

/-- C1 (amended): whenever the hunk's before text is nonempty and occurs more
than once in the content under Python's non-overlapping left-to-right count
(`content.count`), `directly_apply_hunk` reports the ambiguous outcome. -/
theorem directly_apply_countGtOne_ambiguous (content : Str) (hunk : List Str)
    (hb : (hunk_to_before_after hunk).1 ≠ [])
    (hc : 1 < pyCount (hunk_to_before_after hunk).1 content) :
    directly_apply_hunk content hunk = .ambiguous := by
  have hcontains : pyContains (hunk_to_before_after hunk).1 content = true := by
    apply pyContains_of_countAux_pos content.length
    unfold pyCount at hc
    rw [if_neg hb] at hc
    omega
  simp [directly_apply_hunk, hb, hcontains, hc]

/-- Witness for C1 at scenario B of the spec: `"b\n"` occurs twice in
`"x\nb\nx\nb\n"`. -/
theorem c1_witness :
    directly_apply_hunk ("x\nb\nx\nb\n".toList) [("-b\n".toList), ("+B\n".toList)] =
      .ambiguous :=
  directly_apply_countGtOne_ambiguous _ _ (by decide) (by decide)

/-- Counterexample to C1 as stated: with the self-overlapping before text
`"b\nb\n"`, the content `"b\nb\nb\n"` contains occurrences at the two distinct
positions 0 and 2, yet `directly_apply_hunk` silently applies the replacement
(Python's non-overlapping `count` is 1) instead of reporting ambiguity. -/
theorem c1_counterexample :
    occursB (hunk_to_before_after [("-b\n".toList), ("-b\n".toList)]).1
      ("b\nb\nb\n".toList) 0 = true ∧
    occursB (hunk_to_before_after [("-b\n".toList), ("-b\n".toList)]).1
      ("b\nb\nb\n".toList) 2 = true ∧
    (0 : Nat) ≠ 2 ∧
    directly_apply_hunk ("b\nb\nb\n".toList) [("-b\n".toList), ("-b\n".toList)] =
      .applied ("b\n".toList) := by
  decide

/-- C2: when the hunk's before text is nonempty and occurs at exactly one
position `i` of the content, `directly_apply_hunk` succeeds and returns the
content with that single occurrence replaced by the after text, byte-for-byte
identical everywhere else. -/
theorem directly_apply_unique_occurrence (content : Str) (hunk : List Str) (i : Nat)
    (hb : (hunk_to_before_after hunk).1 ≠ [])
    (huniq : occPositions (hunk_to_before_after hunk).1 content = [i]) :
    directly_apply_hunk content hunk =
      .applied (content.take i ++ (hunk_to_before_after hunk).2 ++
        content.drop (i + (hunk_to_before_after hunk).1.length)) := by
  have hocc : occursB (hunk_to_before_after hunk).1 content i = true := by
    have hmem : i ∈ occPositions (hunk_to_before_after hunk).1 content := by
      rw [huniq]; exact List.mem_singleton.mpr rfl
    exact (List.mem_filter.mp hmem).2
  have huniq' : ∀ j, occursB (hunk_to_before_after hunk).1 content j = true → j = i := by
    intro j hj
    have hjlen := occursB_length hb hj
    have hpos : 0 < (hunk_to_before_after hunk).1.length := List.length_pos.mpr hb
    have hjmem : j ∈ occPositions (hunk_to_before_after hunk).1 content :=
      List.mem_filter.mpr ⟨List.mem_range.mpr (by omega), hj⟩
    rw [huniq] at hjmem
    exact List.mem_singleton.mp hjmem
  have hcontains : pyContains (hunk_to_before_after hunk).1 content = true :=
    pyContains_of_occursB content i hocc
  obtain ⟨hcount, hrepl⟩ :=
    uniqueOccursB_count_replace hb (hunk_to_before_after hunk).2 content.length content i
      (Nat.le_refl _) hocc huniq'
  have hcount' : pyCount (hunk_to_before_after hunk).1 content = 1 := by
    unfold pyCount
    rw [if_neg hb]
    exact hcount
  have hrepl' : pyReplace (hunk_to_before_after hunk).1 (hunk_to_before_after hunk).2 content =
      content.take i ++ (hunk_to_before_after hunk).2 ++
        content.drop (i + (hunk_to_before_after hunk).1.length) := by
    unfold pyReplace
    rw [if_neg hb]
    exact hrepl
  simp [directly_apply_hunk, hb, hcontains, hcount', hrepl']

/-- Witness for C2 at scenario A of the spec: content `"a\nb\nc\n"`, before
`"b\n"`, after `"B\n"` yields `"a\nB\nc\n"`. -/
theorem c2_witness :
    directly_apply_hunk ("a\nb\nc\n".toList) [("-b\n".toList), ("+B\n".toList)] =
      .applied ("a\nB\nc\n".toList) := by
  have h := directly_apply_unique_occurrence ("a\nb\nc\n".toList)
    [("-b\n".toList), ("+B\n".toList)] 2 (by decide) (by decide)
  rw [h]
  decide

/-- C4 (amended): the fuzzy whitespace-normalized path of the direct matcher
performs no multiplicity check: whenever the exact path misses, the normalized
before occurs in the normalized content, and the same-length block at the
first occurrence of the before's first line normalizes to the before, the edit
is applied at that block — regardless of how many other locations also match
under the normalized relation. -/
theorem directly_apply_fuzzy_first_occurrence (content : Str) (hunk : List Str)
    (si : Nat) (fl : Str) (rest : List Str)
    (hb : (hunk_to_before_after hunk).1 ≠ [])
    (h1 : pyContains (hunk_to_before_after hunk).1 content = false)
    (h2 : pyContains (normWs (hunk_to_before_after hunk).1) (normWs content) = true)
    (h3 : slNoKeep (hunk_to_before_after hunk).1 = fl :: rest)
    (h4 : fl ≠ [])
    (h5 : pyContains fl content = true)
    (h6 : pyFind fl content = some si)
    (h7 : si + (hunk_to_before_after hunk).1.length ≤ content.length)
    (h8 : normWs ((content.drop si).take (hunk_to_before_after hunk).1.length) =
      normWs (hunk_to_before_after hunk).1) :
    directly_apply_hunk content hunk =
      .applied (content.take si ++ (hunk_to_before_after hunk).2 ++
        content.drop (si + (hunk_to_before_after hunk).1.length)) := by
  unfold directly_apply_hunk fuzzyApply
  rw [h3]
  simp [hb, h1, h2, h4, h5, h6, h7, h8]

/-- Witness for C4: the tabbed before block `"a\nb\tc\n"` fuzzy-matches the
space block at position 0 of `"a\nb c\na\nb c\n"` and the edit is applied
there. -/
theorem c4_witness :
    directly_apply_hunk ("a\nb c\na\nb c\n".toList)
      [("-a\n".toList), ("-b\tc\n".toList), ("+X\n".toList)] =
      .applied ("X\na\nb c\n".toList) := by
  have h := directly_apply_fuzzy_first_occurrence ("a\nb c\na\nb c\n".toList)
    [("-a\n".toList), ("-b\tc\n".toList), ("+X\n".toList)] 0 ("a".toList) [("b\tc".toList)]
    (by decide) (by decide) (by decide) (by decide) (by decide) (by decide) (by decide)
    (by decide) (by decide)
  rw [h]
  decide

/-- Counterexample to C4 as stated: under the whitespace-normalized matching
relation the before block matches the content both at position 0 and at
position 6, yet `directly_apply_hunk` applies the edit at the first location
instead of reporting the ambiguous outcome. -/
theorem c4_counterexample :
    normWs ((("a\nb c\na\nb c\n".toList).drop 0).take 6) =
      normWs (hunk_to_before_after
        [("-a\n".toList), ("-b\tc\n".toList), ("+X\n".toList)]).1 ∧
    normWs ((("a\nb c\na\nb c\n".toList).drop 6).take 6) =
      normWs (hunk_to_before_after
        [("-a\n".toList), ("-b\tc\n".toList), ("+X\n".toList)]).1 ∧
    (0 : Nat) ≠ 6 ∧
    directly_apply_hunk ("a\nb c\na\nb c\n".toList)
      [("-a\n".toList), ("-b\tc\n".toList), ("+X\n".toList)] ≠ .ambiguous := by
  decide

/-! ## Claims about the orchestrator cascade (C3, C10) -/

/-- Equation for `step4` once normalization is known to succeed. -/
theorem step4_eq_of_ok (content : Str) (hunk nh : List Str)
    (h : normalize_hunk hunk = .ok nh) :
    step4 content hunk =
      if nh = hunk then step5 content hunk
      else
        match directly_apply_hunk content nh with
        | .ambiguous => .ambiguous
        | .applied r => if r = [] then step5 content hunk else .ok r
        | .nomatch => step5 content hunk := by
  unfold step4
  rw [h]

/-- C3: inside `do_replace` (once the append/new-file cases do not apply), an
ambiguous outcome of the direct strategy on the raw hunk, or of the direct
strategy on the normalized hunk, propagates immediately to the caller as the
result of `do_replace` — the context-shrinking and last-resort strategies are
not attempted, whatever they would return. -/
theorem do_replace_ambiguous_propagates (te : Bool) (content : Str) (hunk : List Str)
    (hb : stripWs (hunk_to_before_after hunk).1 ≠ []) :
    (directly_apply_hunk content hunk = .ambiguous →
      do_replace te content hunk = .ambiguous) ∧
    (∀ nh, (directly_apply_hunk content hunk = .nomatch ∨
        directly_apply_hunk content hunk = .applied []) →
      normalize_hunk hunk = .ok nh → nh ≠ hunk →
      directly_apply_hunk content nh = .ambiguous →
      do_replace te content hunk = .ambiguous) := by
  have hdr : do_replace te content hunk = doCascade content hunk := by
    unfold do_replace
    simp [hb]
  constructor
  · intro h
    rw [hdr]
    unfold doCascade
    rw [h]
  · intro nh hfalsy hnorm hne hamb
    rw [hdr]
    have hstep4 : step4 content hunk = .ambiguous := by
      rw [step4_eq_of_ok content hunk nh hnorm, if_neg hne, hamb]
    rcases hfalsy with h | h
    · unfold doCascade
      rw [h]
      exact hstep4
    · unfold doCascade
      rw [h]
      simpa using hstep4

/-- Witness for C3: the raw-direct ambiguity of scenario B aborts the cascade;
and a hunk whose whitespace-canonicalized form (but not its raw form) matches
two locations aborts the cascade from the normalized-direct strategy. -/
theorem c3_witness :
    do_replace true ("x\nb\nx\nb\n".toList) [("-b\n".toList), ("+B\n".toList)] =
      .ambiguous ∧
    do_replace true ("a\nb\nc\nb\n".toList)
      [("- \n".toList), ("-b\n".toList), ("+B\n".toList)] = .ambiguous := by
  constructor
  · exact (do_replace_ambiguous_propagates true _ _ (by decide)).1 (by decide)
  · exact (do_replace_ambiguous_propagates true _ _ (by decide)).2
      [("-\n".toList), ("-b\n".toList), ("+B\n".toList)]
      (Or.inl (by decide)) (by decide) (by decide) (by decide)

/-- C10: a strategy that successfully produces the empty string is
indistinguishable from a failed strategy at the `if result:` truthiness checks
of `do_replace` and the cascade falls through to the next, weaker strategy:
this holds for the raw direct strategy, the normalized direct strategy, and
the context-shrinking strategy. -/
theorem empty_applied_falls_through :
    (∀ content hunk, directly_apply_hunk content hunk = .applied [] →
      doCascade content hunk = step4 content hunk) ∧
    (∀ content hunk nh, normalize_hunk hunk = .ok nh → nh ≠ hunk →
      directly_apply_hunk content nh = .applied [] →
      step4 content hunk = step5 content hunk) ∧
    (∀ content hunk, apply_partial_hunk content hunk = some [] →
      step5 content hunk = step6 content hunk) := by
  refine ⟨?_, ?_, ?_⟩
  · intro content hunk h
    unfold doCascade
    rw [h]
    simp
  · intro content hunk nh hnorm hne h
    rw [step4_eq_of_ok content hunk nh hnorm, if_neg hne, h]
    simp
  · intro content hunk h
    unfold step5
    rw [h]
    simp

/-- Witness for C10: deleting the whole content (raw direct, normalized
direct) or an edit-free hunk on empty content (context shrinking) each produce
the empty string and each fall through. -/
theorem c10_witness :
    doCascade ("a\n".toList) [("-a\n".toList)] = step4 ("a\n".toList) [("-a\n".toList)] ∧
    step4 ("\n".toList) [("- \n".toList)] = step5 ("\n".toList) [("- \n".toList)] ∧
    step5 [] [(" a\n".toList)] = step6 [] [(" a\n".toList)] :=
  ⟨empty_applied_falls_through.1 _ _ (by decide),
   empty_applied_falls_through.2.1 ("\n".toList) [("- \n".toList)] [("-\n".toList)]
     (by decide) (by decide) (by decide),
   empty_applied_falls_through.2.2 _ _ (by decide)⟩

/-! ## Claims about the normalizer and the round trip (C7, C8) -/

theorem h2ba_cons_ctx (l : Str) (rest : List Str) :
    hunk_to_before_after_lines ((' ' :: l) :: rest) =
      (l :: (hunk_to_before_after_lines rest).1,
        l :: (hunk_to_before_after_lines rest).2) := rfl

theorem h2ba_cons_del (l : Str) (rest : List Str) :
    hunk_to_before_after_lines (('-' :: l) :: rest) =
      (l :: (hunk_to_before_after_lines rest).1, (hunk_to_before_after_lines rest).2) := rfl

theorem h2ba_cons_add (l : Str) (rest : List Str) :
    hunk_to_before_after_lines (('+' :: l) :: rest) =
      ((hunk_to_before_after_lines rest).1, l :: (hunk_to_before_after_lines rest).2) := rfl

/-- Any rendered re-diff projects back to exactly the two input line
sequences: its context/delete lines enumerate the first input in order and its
context/add lines the second. -/
theorem h2ba_renderDiff : ∀ b a : List Str,
    hunk_to_before_after_lines (renderDiff (computeDiff b a)) = (b, a) := by
  intro b
  induction b with
  | nil =>
    intro a
    induction a with
    | nil => rfl
    | cons y ys ih =>
      have hstep : renderDiff (computeDiff ([] : List Str) (y :: ys)) =
          ('+' :: y) :: renderDiff (computeDiff ([] : List Str) ys) := rfl
      rw [hstep, h2ba_cons_add, ih]
  | cons x xs ihx =>
    intro a
    cases a with
    | nil =>
      have hstep : renderDiff (computeDiff (x :: xs) ([] : List Str)) =
          ('-' :: x) :: renderDiff (computeDiff xs []) := rfl
      rw [hstep, h2ba_cons_del, ihx []]
    | cons y ys =>
      by_cases hxy : x = y
      · subst hxy
        have hstep : renderDiff (computeDiff (x :: xs) (x :: ys)) =
            (' ' :: x) :: renderDiff (computeDiff xs ys) := by
          simp [computeDiff, renderDiff, renderDLine]
        rw [hstep, h2ba_cons_ctx, ihx ys]
      · have hstep : renderDiff (computeDiff (x :: xs) (y :: ys)) =
            ('-' :: x) :: renderDiff (computeDiff xs (y :: ys)) := by
          simp [computeDiff, renderDiff, renderDLine, hxy]
        rw [hstep, h2ba_cons_del, ihx (y :: ys)]

/-- C7 (amended): for two distinct before/after line sequences, the hunk that
the normalizer's re-diff constructs projects back to exactly those two
sequences under `hunk_to_before_after`, line endings included.  (For equal
nonempty sequences the re-diff is empty and the round trip fails, see the
counterexample.) -/
theorem reDiff_roundtrip (b a : List Str) (h : b ≠ a) :
    hunk_to_before_after_lines (reDiff b a) = (b, a) := by
  unfold reDiff
  rw [if_neg h]
  exact h2ba_renderDiff b a

/-- Witness for C7 at a concrete distinct pair. -/
theorem c7_witness :
    hunk_to_before_after_lines (reDiff [("a\n".toList)] [("b\n".toList)]) =
      ([("a\n".toList)], [("b\n".toList)]) :=
  reDiff_roundtrip _ _ (by decide)

/-- Counterexample to C7 as stated: re-diffing the equal pair
`(["a\n"], ["a\n"])` yields the empty hunk, whose views are empty — the round
trip does not reproduce the original sequences. -/
theorem c7_counterexample :
    reDiff [("a\n".toList)] [("a\n".toList)] = [] ∧
    hunk_to_before_after_lines (reDiff [("a\n".toList)] [("a\n".toList)]) ≠
      ([("a\n".toList)], [("a\n".toList)]) := by
  decide

/-- C8 (amended): whenever canonicalizing the whitespace-only lines of the
before/after views succeeds and the canonicalized views differ,
`normalize_hunk` returns the recomputed single maximal-context hunk, and that
hunk represents exactly the canonicalized edit (its views are the
canonicalized before/after).  (When the canonicalized views coincide the
result is the empty hunk and the edit is dropped, see the counterexample; the
`except IndexError` fallback returning the original hunk is unreachable.) -/
theorem normalize_hunk_recomputed (hunk : List Str) (b a : List Str)
    (hb : canonAll (hunk_to_before_after_lines hunk).1 = some b)
    (ha : canonAll (hunk_to_before_after_lines hunk).2 = some a)
    (hne : b ≠ a) :
    normalize_hunk hunk = .ok (renderDiff (computeDiff b a)) ∧
    hunk_to_before_after_lines (renderDiff (computeDiff b a)) = (b, a) := by
  constructor
  · unfold normalize_hunk
    rw [hb, ha]
    show NormResult.ok (reDiff b a) = _
    unfold reDiff
    rw [if_neg hne]
  · exact h2ba_renderDiff b a

/-- Witness for C8 at a concrete hunk with distinct canonicalized views. -/
theorem c8_witness :
    normalize_hunk [("-a\n".toList), ("+b\n".toList)] =
      .ok (renderDiff (computeDiff [("a\n".toList)] [("b\n".toList)])) ∧
    hunk_to_before_after_lines (renderDiff (computeDiff [("a\n".toList)] [("b\n".toList)])) =
      ([("a\n".toList)], [("b\n".toList)]) :=
  normalize_hunk_recomputed _ _ _ (by decide) (by decide) (by decide)

/-- Counterexample to C8 as stated: the hunk `["- \n", "+\t\n"]` replaces one
whitespace-only line with another; both views canonicalize to `["\n"]`, the
re-diff is empty, and `normalize_hunk` returns the empty hunk — neither a hunk
representing the same edit (its views are empty) nor the original hunk
unchanged, so the normalization is lossy here. -/
theorem c8_counterexample :
    normalize_hunk [("- \n".toList), ("+\t\n".toList)] = .ok [] ∧
    ([] : List Str) ≠ [("- \n".toList), ("+\t\n".toList)] ∧
    canonAll (hunk_to_before_after_lines [("- \n".toList), ("+\t\n".toList)]).1 =
      some [("\n".toList)] ∧
    canonAll (hunk_to_before_after_lines [("- \n".toList), ("+\t\n".toList)]).2 =
      some [("\n".toList)] ∧
    hunk_to_before_after_lines ([] : List Str) ≠ ([("\n".toList)], [("\n".toList)]) := by
  decide

/-! ## Claim about the context-shrinking matcher (C6) -/

/-- Whenever the section loop reaches an edit section for which every
leading/trailing context combination fails, the loop's result is `none` for
any sufficient fuel — no partially patched content escapes. -/
theorem segLoop_none_of_reaches {S : List (Char × List Str)} {i : Nat} {c : Str}
    {j : Nat} {c' : Str} (hreach : Reaches S i c j c') (hj : j < S.length)
    (htyj : typeOf S j = 'x')
    (htc : tryCand c' (preOf S j) (secOf S j) (folOf S j) = Option.none) :
    ∀ fuel, S.length - i < fuel → segLoopAux S fuel i c = Option.none := by
  revert hj htyj htc
  induction hreach with
  | refl i c =>
    intro hj htyj htc fuel hfuel
    cases fuel with
    | zero => omega
    | succ f =>
      simp only [segLoopAux]
      rw [if_pos hj, if_pos htyj, htc]
  | skip i c j c' hi hty _ ih =>
    intro hj htyj htc fuel hfuel
    cases fuel with
    | zero => omega
    | succ f =>
      simp only [segLoopAux]
      rw [if_pos hi, if_neg hty]
      exact ih hj htyj htc f (by omega)
  | step i c j c' r hi hty htcand _ ih =>
    intro hj htyj htc fuel hfuel
    cases fuel with
    | zero => omega
    | succ f =>
      simp only [segLoopAux]
      rw [if_pos hi, if_pos hty, htcand]
      exact ih hj htyj htc f (by omega)

/-- C6: `apply_partial_hunk` is atomic.  First conjunct: an ambiguous
candidate is treated as a failed candidate and the scan moves to the next
context length.  Second conjunct: if the section loop, threading provisional
edits through the evolving content, reaches any edit section whose every
leading/trailing context combination fails, then `apply_partial_hunk` returns
`none` — the provisional edits of earlier sections are discarded. -/
theorem apply_partial_hunk_atomic :
    (∀ (content : Str) (pctx sec fol : List Str) (f : Nat),
      directly_apply_hunk content (pctx ++ sec ++ fol.take (f + 1)) = .ambiguous →
      tryFs content pctx sec fol (f + 1) = tryFs content pctx sec fol f) ∧
    (∀ (content : Str) (hunk : List Str) (j : Nat) (c : Str),
      Reaches (buildSections hunk) 0 content j c →
      j < (buildSections hunk).length →
      typeOf (buildSections hunk) j = 'x' →
      tryCand c (preOf (buildSections hunk) j) (secOf (buildSections hunk) j)
        (folOf (buildSections hunk) j) = Option.none →
      apply_partial_hunk content hunk = Option.none) := by
  constructor
  · intro content pctx sec fol f h
    simp only [tryFs]
    rw [h]
  · intro content hunk j c hreach hj hty htc
    unfold apply_partial_hunk
    exact segLoop_none_of_reaches hreach hj hty htc _ (by omega)

/-- Witness for C6: an ambiguous candidate (before `"b\nx\n"` occurs twice) is
skipped rather than fatal; and a hunk whose first edit section applies but
whose second edit section (`-z`) matches nowhere makes the whole partial
application fail, discarding the already-applied first edit. -/
theorem c6_witness :
    tryFs ("b\nx\nb\nx\n".toList) [] [("-b\n".toList)] [(" x\n".toList)] 1 =
      tryFs ("b\nx\nb\nx\n".toList) [] [("-b\n".toList)] [(" x\n".toList)] 0 ∧
    apply_partial_hunk ("a\nc\nd\n".toList)
      [("-a\n".toList), (" c\n".toList), ("-z\n".toList)] = Option.none := by
  constructor
  · exact apply_partial_hunk_atomic.1 _ _ _ _ 0 (by decide)
  · exact apply_partial_hunk_atomic.2 ("a\nc\nd\n".toList)
      [("-a\n".toList), (" c\n".toList), ("-z\n".toList)] 2 ("c\nd\n".toList)
      (Reaches.step 0 ("a\nc\nd\n".toList) 2 ("c\nd\n".toList) ("c\nd\n".toList)
        (by decide) (by decide) (by decide)
        (Reaches.skip 1 ("c\nd\n".toList) 2 ("c\nd\n".toList)
          (by decide) (by decide)
          (Reaches.refl 2 ("c\nd\n".toList))))
      (by decide) (by decide) (by decide)

/-! ## Claim about the last-resort block match (C9) -/

/-- A window of the last-resort match: start `i` is in range and the joined
window strips to the joined before lines. -/
def lrMatch (cl bl : List Str) (i : Nat) : Prop :=
  i + bl.length ≤ cl.length ∧ lrCond cl bl i

instance instDecidableLrMatch (cl bl : List Str) (i : Nat) : Decidable (lrMatch cl bl i) :=
  inferInstanceAs (Decidable (_ ∧ _))

/-- Characterization of the last-resort loop: it returns `some r` exactly when
some window in `[i, i+k)` satisfies the joined-strip comparison, no earlier
window in that range does, and `r` is the splice at that window. -/
theorem lrAux_some_iff (cl bl al : List Str) :
    ∀ (k i : Nat) (r : Str), lrAux cl bl al i k = some r ↔
      ∃ m, i ≤ m ∧ m < i + k ∧ lrCond cl bl m ∧
        (∀ e, i ≤ e → e < m → ¬ lrCond cl bl e) ∧ r = lrSplice cl bl al m := by
  intro k
  induction k with
  | zero =>
    intro i r
    simp only [lrAux]
    constructor
    · intro h
      exact Option.noConfusion h
    · rintro ⟨m, h1, h2, -⟩
      omega
  | succ k ih =>
    intro i r
    simp only [lrAux]
    by_cases hc : lrCond cl bl i
    · rw [if_pos hc]
      constructor
      · intro h
        exact ⟨i, Nat.le_refl i, by omega, hc, fun e he1 he2 => by omega,
          (Option.some.injEq _ _).mp h.symm⟩
      · rintro ⟨m, hm1, hm2, hmc, hmin, hr⟩
        have hmi : m = i := by
          by_contra hne
          exact hmin i (Nat.le_refl i) (by omega) hc
        subst hmi
        rw [hr]
    · rw [if_neg hc, ih (i + 1) r]
      constructor
      · rintro ⟨m, hm1, hm2, hmc, hmin, hr⟩
        refine ⟨m, by omega, by omega, hmc, ?_, hr⟩
        intro e he1 he2
        rcases Nat.eq_or_lt_of_le he1 with rfl | hgt
        · exact hc
        · exact hmin e (by omega) he2
      · rintro ⟨m, hm1, hm2, hmc, hmin, hr⟩
        have hmi : m ≠ i := by
          intro h
          subst h
          exact hc hmc
        refine ⟨m, by omega, by omega, hmc, ?_, hr⟩
        intro e he1 he2
        exact hmin e (by omega) he2

/-- C9 (amended): the last-resort strategy of `do_replace` succeeds exactly
when some window of length the before-line-count, slid over the content's
lines, has its lines joined and stripped of surrounding whitespace equal to
the joined-and-stripped before lines (the stripping is applied to the joined
block, not per line); on success the after lines are spliced in at the first
such window. -/
theorem step6_ok_iff (content : Str) (hunk : List Str) (r : Str) :
    step6 content hunk = .ok r ↔
      (hunk_to_before_after_lines hunk).1 ≠ [] ∧
      ∃ m, lrMatch (slKeep content) (hunk_to_before_after_lines hunk).1 m ∧
        (∀ e < m, ¬ lrMatch (slKeep content) (hunk_to_before_after_lines hunk).1 e) ∧
        r = lrSplice (slKeep content) (hunk_to_before_after_lines hunk).1
          (hunk_to_before_after_lines hunk).2 m := by
  by_cases hbl : (hunk_to_before_after_lines hunk).1 = []
  · unfold step6
    rw [if_pos hbl]
    simp [hbl]
  · unfold step6
    rw [if_neg hbl]
    have hpos : 0 < (hunk_to_before_after_lines hunk).1.length :=
      List.length_pos.mpr hbl
    constructor
    · intro h
      cases haux : lrAux (slKeep content) (hunk_to_before_after_lines hunk).1
          (hunk_to_before_after_lines hunk).2 0
          ((slKeep content).length + 1 - (hunk_to_before_after_lines hunk).1.length) with
      | none => rw [haux] at h; exact ReplaceResult.noConfusion h
      | some r' =>
        rw [haux] at h
        have hr' : r' = r := by
          have := (ReplaceResult.ok.injEq _ _).mp h
          exact this
        subst hr'
        obtain ⟨m, -, hm2, hmc, hmin, hr⟩ := (lrAux_some_iff _ _ _ _ 0 r').mp haux
        refine ⟨hbl, m, ⟨by omega, hmc⟩, ?_, hr⟩
        intro e he hmatch
        exact hmin e (by omega) he hmatch.2
    · rintro ⟨-, m, ⟨hmb, hmc⟩, hmin, hr⟩
      have haux : lrAux (slKeep content) (hunk_to_before_after_lines hunk).1
          (hunk_to_before_after_lines hunk).2 0
          ((slKeep content).length + 1 - (hunk_to_before_after_lines hunk).1.length) =
          some r := by
        rw [lrAux_some_iff]
        refine ⟨m, by omega, by omega, hmc, ?_, hr⟩
        intro e he1 he2 hec
        exact hmin e he2 ⟨by omega, hec⟩
      rw [haux]

/-- Witness for C9: a window matching under the joined-strip comparison makes
the strategy succeed with the after lines spliced at that window. -/
theorem c9_witness :
    (hunk_to_before_after_lines
      [("-a\n".toList), ("-b\n".toList), ("+X\n".toList)]).1 ≠ [] ∧
    ∃ m, lrMatch (slKeep ("a\nb\n".toList))
        (hunk_to_before_after_lines
          [("-a\n".toList), ("-b\n".toList), ("+X\n".toList)]).1 m ∧
      (∀ e < m, ¬ lrMatch (slKeep ("a\nb\n".toList))
        (hunk_to_before_after_lines
          [("-a\n".toList), ("-b\n".toList), ("+X\n".toList)]).1 e) ∧
      ("X\n".toList) = lrSplice (slKeep ("a\nb\n".toList))
        (hunk_to_before_after_lines
          [("-a\n".toList), ("-b\n".toList), ("+X\n".toList)]).1
        (hunk_to_before_after_lines
          [("-a\n".toList), ("-b\n".toList), ("+X\n".toList)]).2 m :=
  (step6_ok_iff ("a\nb\n".toList)
    [("-a\n".toList), ("-b\n".toList), ("+X\n".toList)] ("X\n".toList)).mp (by decide)

/-- Counterexample to C9 as stated: the first window of `"a\nb\n"` equals the
before lines `[" a \n", "b\n"]` after *per-line* stripping and joining (both
give `"ab"`), which is the claim's success condition, yet the last-resort
strategy — which strips the *joined* block instead — fails, as does the whole
of `do_replace`. -/
theorem c9_counterexample :
    ((((slKeep ("a\nb\n".toList)).drop 0).take 2).map stripWs).flatten =
      ((hunk_to_before_after_lines
        [("- a \n".toList), ("-b\n".toList)]).1.map stripWs).flatten ∧
    0 + (hunk_to_before_after_lines
      [("- a \n".toList), ("-b\n".toList)]).1.length ≤ (slKeep ("a\nb\n".toList)).length ∧
    step6 ("a\nb\n".toList) [("- a \n".toList), ("-b\n".toList)] = .fail ∧
    do_replace true ("a\nb\n".toList) [("- a \n".toList), ("-b\n".toList)] = .fail := by
  decide

/-! ## Claim about the diff extractor (C5) -/

/-- Invariant of the standard-marker loop: every emitted hunk contains an edit
line, because every flush is guarded by the edit-line check. -/
theorem pudGo_invariant (lines : List Str) :
    ∀ (fname : Option Str) (cur : List Str) (acc : List (Option Str × List Str)),
    (∀ p ∈ acc, p.2.any isEditLine = true) →
    ∀ p ∈ pudGo lines fname cur acc, p.2.any isEditLine = true := by
  induction lines with
  | nil =>
    intro fname cur acc hacc p hp
    simp only [pudGo] at hp
    by_cases h : cur ≠ [] ∧ cur.any isEditLine = true
    · rw [if_pos h] at hp
      rcases List.mem_append.mp hp with hmem | hmem
      · exact hacc p hmem
      · rw [List.mem_singleton.mp hmem]
        exact h.2
    · rw [if_neg h] at hp
      exact hacc p hp
  | cons line rest ih =>
    intro fname cur acc hacc p hp
    simp only [pudGo] at hp
    by_cases h1 : ("@@ ".toList).isPrefixOf line = true
    · rw [if_pos h1] at hp
      refine ih _ _ _ ?_ p hp
      intro q hq
      by_cases h2 : cur ≠ [] ∧ cur.any isEditLine = true
      · rw [if_pos h2] at hq
        rcases List.mem_append.mp hq with hmem | hmem
        · exact hacc q hmem
        · rw [List.mem_singleton.mp hmem]
          exact h2.2
      · rw [if_neg h2] at hq
        exact hacc q hq
    · rw [if_neg h1] at hp
      by_cases h2 : ("--- ".toList).isPrefixOf line = true
      · rw [if_pos h2] at hp
        exact ih _ _ _ hacc p hp
      · rw [if_neg h2] at hp
        by_cases h3 : ("+++ ".toList).isPrefixOf line = true
        · rw [if_pos h3] at hp
          exact ih _ _ _ hacc p hp
        · rw [if_neg h3] at hp
          by_cases h4 : cur ≠ [] ∨ ([' '].isPrefixOf line || isEditLine line) = true
          · rw [if_pos h4] at hp
            exact ih _ _ _ hacc p hp
          · rw [if_neg h4] at hp
            exact ih _ _ _ hacc p hp

/-- C5 (amended): on the standard-marker and bare-sign paths — that is, for
any input blob with no fenced `diff` block — every (target, hunk) pair emitted
by `find_diffs` contains at least one `+`/`-` line.  (The fenced-block path
can emit edit-free hunks at a `---`/`+++` flush, see the counterexample.) -/
theorem find_diffs_nonfenced_edit_invariant (content : Str)
    (hnf : (slKeep (ensureNL content)).any
      (fun l => ("```diff".toList).isPrefixOf l) = false) :
    ∀ p ∈ find_diffs content, p.2.any isEditLine = true := by
  intro p hp
  unfold find_diffs at hp
  simp only [hnf, Bool.false_eq_true, if_false] at hp
  by_cases h2 : (slKeep (ensureNL content)).any (fun l => ("@@ ".toList).isPrefixOf l) = true
  · rw [if_pos h2] at hp
    refine pudGo_invariant _ _ _ _ ?_ p hp
    intro q hq
    exact absurd hq (List.not_mem_nil q)
  · rw [if_neg h2] at hp
    by_cases h3 : (slKeep (ensureNL content)).any isEditLine = true
    · rw [if_pos h3] at hp
      rw [List.mem_singleton.mp hp]
      obtain ⟨l, hl, hledit⟩ := List.any_eq_true.mp h3
      apply List.any_eq_true.mpr
      refine ⟨l, ?_, hledit⟩
      exact List.mem_cons_of_mem _ (List.mem_filter.mpr ⟨hl, by simp [keepLine, hledit]⟩)
    · rw [if_neg h3] at hp
      exact absurd hp (List.not_mem_nil p)

/-- Witness for C5 on the bare-sign path: the synthesized hunk for
`"-a\n+b\n"` contains edit lines. -/
theorem c5_witness :
    (((Option.none : Option Str),
      [("@@ -1,1 +1,1 @@\n".toList), ("-a\n".toList), ("+b\n".toList)])).2.any
      isEditLine = true :=
  find_diffs_nonfenced_edit_invariant ("-a\n+b\n".toList) (by decide) _ (by decide)

/-- Counterexample to C5 as stated: on the fenced-block path, a `---`/`+++`
header pair flushes the open hunk without the keeper check, so the blob
consisting only of a fenced `diff` block with the two header lines yields a
ChangeSet containing one empty hunk — which has no `+`/`-` line. -/
theorem c5_counterexample :
    find_diffs ("```diff\n--- a\n+++ b\n```\n".toList) = [(Option.none, [])] ∧
    (([] : List Str).any isEditLine) = false := by
  decide

end Udiff
